import Mathlib

/-!
Verification of the shuffle-ZKP aggregation protocol (shuffle-zkp repository).

The development shallowly embeds the protocol logic of `src/example/sum_cmp.go`
and `src/vote/vote.go`: the polynomial-fingerprint primitive `PolyEval`, secret
splitting, dummy masking, the server-side consistency check, the Condorcet
sole-winner extraction, and the pairwise encoding of rankings.  Field elements
of the BN254 scalar field are modelled as `ZMod bnP`; the definitions are kept
polymorphic over a commutative ring where the Go code only uses ring
operations, and are instantiated at `F := ZMod bnP` in the theorems.
-/

namespace ShuffleZKP

/-- Order of the BN254 scalar field `fr_bn254` used throughout the Go code. -/
def bnP : Nat := 21888242871839275222246405745257275088548364400416034343698204186575808495617

instance : NeZero bnP := ⟨by norm_num [bnP]⟩

instance : Fact (1 < bnP) := ⟨by norm_num [bnP]⟩

/-- The field of scalars, `fr_bn254.Element` in the Go code. -/
abbrev F : Type := ZMod bnP

/-- Shallow embedding of `PolyEval` (src/example/sum_cmp.go lines 47-56, and
identically src/vote/vote.go lines 50-59): the product accumulator starts at
`vec[0] + r` and multiplies in `vec[i] + r` for every later entry.  The Go code
indexes `vec[0]` unconditionally, so the empty slice has no value (the access
is out of range); we model that as `none`. -/
def PolyEval {R : Type} [CommRing R] (vec : List R) (r : R) : Option R :=
  match vec with
  | [] => none
  | v :: rest => some (rest.foldl (fun prod x => prod * (x + r)) (v + r))

/-- Closed product form of the fingerprint, used to reason about `PolyEval`. -/
def fingerprint {R : Type} [CommRing R] (vec : List R) (r : R) : R :=
  (vec.map (fun x => x + r)).prod

/-- Server-side consistency check (src/example/sum_cmp.go lines 465-486, and
src/vote/vote.go lines 463-488): evaluate the fingerprint of the shuffled flat
sequence, multiply in every shuffled dummy value, and compare with the product
of the per-client public fingerprints (accumulated from `1`). -/
def serverCheck {R : Type} [CommRing R] [DecidableEq R] (flat dums : List R) (r : R)
    (clientProds : List R) : Option Bool :=
  (PolyEval flat r).map (fun pr =>
    decide (dums.foldl (fun a m => a * m) pr = clientProds.foldl (fun a q => a * q) 1))

/-- A client's public fingerprint `PublicProd` (src/example/sum_cmp.go lines
150-152 in `GenProofGroth16`, src/vote/vote.go lines 244-248 in
`ComputePolyEval`): the fingerprint of the client's values at the challenge,
multiplied by the mask, where the mask is the product of the dummy values
accumulated from `1` (sum_cmp.go lines 388-393, vote.go lines 222-226). -/
def clientPublicProd {R : Type} [CommRing R] (values dums : List R) (r : R) : Option R :=
  (PolyEval values r).map (fun pr => pr * dums.foldl (fun a m => a * m) 1)

/-- Secret splitting (src/example/sum_cmp.go lines 381-386): `share[0]` starts
as the secret and each randomly drawn later share is subtracted from it; the
later shares are exactly the drawn random values. -/
def splitSecret {R : Type} [CommRing R] (secret : R) (rands : List R) : List R :=
  rands.foldl (fun s x => s - x) secret :: rands

/-- In-circuit share sum (src/example/sum_cmp.go lines 83-89): the accumulator
starts at `PrivateVec[0]` and adds every later entry; the empty vector has no
value, as the Go code indexes `PrivateVec[0]`. -/
def circuitShareSum {R : Type} [CommRing R] (vec : List R) : Option R :=
  match vec with
  | [] => none
  | v :: rest => some (rest.foldl (fun a x => a + x) v)

/-- Modelled from the spec: the per-client threshold clause of the sum circuit.
The comparison itself is gnark's `api.AssertIsLessOrEqual` (an external
collaborator, not part of this repository); per the spec contract it enforces
"sum of private shares ≤ public threshold" on the canonical integer values of
the field elements. -/
def thresholdClauseHolds (vec : List F) (threshold : F) : Bool :=
  ((circuitShareSum vec).map (fun s => decide (s.val ≤ threshold.val))).getD false

/-- Pair list generated by a voting client (src/vote/vote.go lines 200-208):
for each rank position `i` and each later position `i + j + 1`, emit the pair
`(ranking[i], ranking[i+j+1])`, rows concatenated in order of `i`. -/
def pairsFrom (ranking : List Nat) : List (Nat × Nat) :=
  ((List.range ranking.length).map (fun i =>
    (List.range (ranking.length - i - 1)).map (fun j =>
      (ranking.getD i 0, ranking.getD (i + j + 1) 0)))).flatten

/-- Start offset of row `i` in the flat pair list: the number of pairs emitted
by the earlier rows `0 .. i-1`, row `k` contributing `C - k - 1` pairs. -/
def pairBase (C i : Nat) : Nat :=
  ((List.range i).map (fun k => C - k - 1)).sum

/-- Structurally recursive form of the pair list, used to reason about
`pairsFrom`: the head is paired with every later element, then recurse. -/
def pairsRec {α : Type} : List α → List (α × α)
  | [] => []
  | x :: rest => (rest.map (fun y => (x, y))) ++ pairsRec rest

/-- Pairwise tally matrix built from the shuffled pairs (src/vote/vote.go lines
493-499): entry `(i, j)` counts the received pairs equal to `(i, j)`. -/
def buildTally (pairs : List (Nat × Nat)) (i j : Nat) : Nat :=
  (pairs.filter (fun q => decide (q.1 = i ∧ q.2 = j))).length

/-- Inner loop of the sole-winner scan (src/vote/vote.go lines 502-512):
candidate `i` stays `ok` precisely when no other candidate `j` has
`cnt[i][j] <= cnt[j][i]`. -/
def okCandidate (C : Nat) (cnt : Nat → Nat → Nat) (i : Nat) : Bool :=
  (List.range C).all (fun j => decide (j = i) || decide (cnt j i < cnt i j))

/-- Sole-winner extraction (src/vote/vote.go lines 500-524): starting from
`-1`, each candidate that survives the inner scan overwrites the result. -/
def soleWinner (C : Nat) (cnt : Nat → Nat → Nat) : Int :=
  (List.range C).foldl (fun acc i => if okCandidate C cnt i then (i : Int) else acc) (-1)

/-- Per-client submissions in the voting round (src/vote/vote.go lines
404-415): client `i` gets a generated proof and public witness exactly when
`i < maxCheck`, and its `PublicProd` is always recorded.  The proof and public
witness artifacts are opaque, modelled as `Option Unit`. -/
def mkSubmissions (prods : List F) (maxCheck : Nat) : List (Option Unit × Option Unit × F) :=
  (List.range prods.length).map (fun i =>
    if i < maxCheck then (some (), some (), prods.getD i 0)
    else (none, none, prods.getD i 0))

/-- Indices whose proofs the server verifies (src/vote/vote.go lines 452-459):
the loop runs over all submissions and verifies exactly those with
`i < maxCheck`. -/
def verifiedIndices (n maxCheck : Nat) : List Nat :=
  (List.range n).filter (fun i => decide (i < maxCheck))

/-- Product of all clients' public fingerprints (src/vote/vote.go lines
480-483): accumulated from `1` over every submission, sampled or not. -/
def prodFromClient (subs : List (Option Unit × Option Unit × F)) : F :=
  subs.foldl (fun a s => a * s.2.2) 1

/-! ### Helper lemmas -/

theorem foldl_mul_init {R : Type} [CommRing R] (l : List R) (a : R) :
    l.foldl (fun p x => p * x) a = a * l.prod := by
  induction l generalizing a with
  | nil => simp
  | cons x xs ih => simp [List.foldl_cons, ih (a * x), mul_assoc]

theorem foldl_mul_shift {R : Type} [CommRing R] (l : List R) (r a : R) :
    l.foldl (fun p x => p * (x + r)) a = a * (l.map (fun x => x + r)).prod := by
  rw [← List.foldl_map (fun x => x + r) (fun p x => p * x) l a]
  exact foldl_mul_init _ _

theorem foldl_add_init {R : Type} [CommRing R] (l : List R) (a : R) :
    l.foldl (fun p x => p + x) a = a + l.sum := by
  induction l generalizing a with
  | nil => simp
  | cons x xs ih => simp [List.foldl_cons, ih (a + x), add_assoc]

theorem foldl_sub_init {R : Type} [CommRing R] (l : List R) (a : R) :
    l.foldl (fun p x => p - x) a = a - l.sum := by
  induction l generalizing a with
  | nil => simp
  | cons x xs ih => simp [List.foldl_cons, ih (a - x), sub_sub]

theorem polyEval_cons {R : Type} [CommRing R] (v : F) (rest : List F) (r : F) :
    PolyEval (v :: rest) r = some (fingerprint (v :: rest) r) := by
  simp [PolyEval, fingerprint, foldl_mul_shift, List.map_cons, List.prod_cons]

theorem polyEval_eq_some_fingerprint {R : Type} [CommRing R] (vec : List R) (r : R)
    (h : vec ≠ []) : PolyEval vec r = some (fingerprint vec r) := by
  match vec with
  | [] => exact absurd rfl h
  | v :: rest =>
    simp [PolyEval, fingerprint, foldl_mul_shift, List.map_cons, List.prod_cons]

theorem fingerprint_perm {R : Type} [CommRing R] {l l' : List R} (r : R) (h : l.Perm l') :
    fingerprint l r = fingerprint l' r :=
  (h.map (fun x => x + r)).prod_eq

theorem fingerprint_join {R : Type} [CommRing R] (L : List (List R)) (r : R) :
    fingerprint L.flatten r = (L.map (fun l => fingerprint l r)).prod := by
  induction L with
  | nil => simp [fingerprint]
  | cons l ls ih =>
    simp only [fingerprint] at ih ⊢
    simp only [List.flatten_cons, List.map_append, List.prod_append, List.map_cons,
      List.prod_cons, ih]

/-! ### C2: secret splitting preserves the sum -/

/-- C2: for every secret `s` and every list of drawn random shares giving a
share count of at least two, the field sum of all shares produced by the
splitting loop equals the secret. -/
theorem split_sum (s : F) (rands : List F) (hk : 2 ≤ (splitSecret s rands).length) :
    (splitSecret s rands).sum = s := by
  simp [splitSecret, foldl_sub_init, List.sum_cons]

/-- Witness for `split_sum` at secret `5` with one drawn share `3`. -/
theorem split_sum_witness :
    2 ≤ (splitSecret (5 : F) [3]).length ∧ (splitSecret (5 : F) [3]).sum = 5 :=
  ⟨by decide, split_sum 5 [3] (by decide)⟩

/-! ### C3: the fingerprint is order-independent -/

/-- C3: for every sequence of field elements, every permutation of it, and
every challenge, `PolyEval` gives the same result. -/
theorem polyEval_perm (l l' : List F) (r : F) (h : l.Perm l') :
    PolyEval l r = PolyEval l' r := by
  match l with
  | [] =>
    have : l' = [] := h.symm.eq_nil
    rw [this]
  | v :: rest =>
    have hne : l' ≠ [] := by
      intro he
      exact absurd (he ▸ h).eq_nil (by simp)
    rw [polyEval_eq_some_fingerprint _ r (by simp),
      polyEval_eq_some_fingerprint _ r hne, fingerprint_perm r h]

/-- Witness for `polyEval_perm` on the concrete permuted pair `[1,2] ~ [2,1]`
at challenge `3`. -/
theorem polyEval_perm_witness :
    ([(1 : F), 2]).Perm [2, 1] ∧ PolyEval [(1 : F), 2] 3 = PolyEval [(2 : F), 1] 3 :=
  ⟨List.Perm.swap 2 1 [], polyEval_perm _ _ 3 (List.Perm.swap 2 1 [])⟩

/-! ### C7: totality of the fingerprint -/

/-- C7 counterexample: on the empty sequence `PolyEval` has no value (the Go
code indexes `vec[0]`, which is out of range), rather than returning the
empty product `1` as the claim states. -/
theorem polyEval_empty_counterexample : PolyEval ([] : List F) 0 ≠ some 1 := by
  simp [PolyEval]

/-- C7 amended: `PolyEval` returns the product of `(v + r)` on every non-empty
sequence, but on the empty sequence it is undefined (out-of-range index in the
Go code) instead of returning `1`. -/
theorem polyEval_total_on_nonempty :
    (∀ (v : F) (rest : List F) (r : F),
      PolyEval (v :: rest) r = some (((v :: rest).map (fun x => x + r)).prod))
    ∧ ∀ r : F, PolyEval ([] : List F) r = none := by
  refine ⟨fun v rest r => ?_, fun r => rfl⟩
  rw [polyEval_eq_some_fingerprint _ r (by simp)]
  rfl

/-! ### C1: an honest round passes the consistency check -/

theorem clientPublicProd_eq (values dums : List F) (r : F) (h : values ≠ []) :
    clientPublicProd values dums r = some (fingerprint values r * dums.prod) := by
  rw [clientPublicProd, polyEval_eq_some_fingerprint _ _ h, Option.map_some']
  rw [foldl_mul_init, one_mul]

theorem prods_of_honest_clients (clients : List (List F × List F)) (prods : List F) (r : F)
    (hv : ∀ c ∈ clients, c.1 ≠ [])
    (hp : List.Forall₂ (fun c q => clientPublicProd c.1 c.2 r = some q) clients prods) :
    prods = clients.map (fun c => fingerprint c.1 r * c.2.prod) := by
  induction hp with
  | nil => rfl
  | @cons a b l₁ l₂ h t ih =>
    have ha : a.1 ≠ [] := hv a (by simp)
    rw [clientPublicProd_eq _ _ _ ha] at h
    have hb : b = fingerprint a.1 r * a.2.prod := (Option.some.injEq _ _).mp h.symm
    have htail := ih (fun c hc => hv c (by simp [hc]))
    simp [List.map_cons, hb, htail]

/-- C1: in an honest round, where every client's public fingerprint is its
values' fingerprint at the challenge times its mask, and the shuffler only
permutes the concatenated values and (independently) the concatenated dummies,
the server-side consistency check succeeds for every challenge. -/
theorem honest_round_check (clients : List (List F × List F)) (flat dums prods : List F) (r : F)
    (hcn : clients ≠ [])
    (hcv : ∀ c ∈ clients, c.1 ≠ [])
    (hp : List.Forall₂ (fun c q => clientPublicProd c.1 c.2 r = some q) clients prods)
    (hf : flat.Perm ((clients.map Prod.fst).flatten))
    (hd : dums.Perm ((clients.map Prod.snd).flatten)) :
    serverCheck flat dums r prods = some true := by
  have hflatne : flat ≠ [] := by
    intro h0
    obtain ⟨c, cs, rfl⟩ := List.exists_cons_of_ne_nil hcn
    have hnil : ((c :: cs).map Prod.fst).flatten = [] := ((h0 ▸ hf).symm).eq_nil
    simp only [List.map_cons, List.flatten_cons, List.append_eq_nil] at hnil
    exact hcv c (by simp) hnil.1
  rw [serverCheck, polyEval_eq_some_fingerprint _ _ hflatne, Option.map_some']
  have hgoal : dums.foldl (fun a m => a * m) (fingerprint flat r)
      = prods.foldl (fun a q => a * q) 1 := by
    rw [foldl_mul_init, foldl_mul_init, one_mul]
    rw [fingerprint_perm r hf, hd.prod_eq, fingerprint_join,
      prods_of_honest_clients clients prods r hcv hp]
    rw [List.prod_flatten, List.map_map, List.map_map, List.prod_map_mul]
    rfl
  rw [hgoal]
  simp

/-- Witness for `honest_round_check`: two clients holding values `[1]`, `[3]`
with dummies `[2]`, `[4]`, challenge `5`, and the shuffled sequences
`[3, 1]` and `[4, 2]`. -/
theorem honest_round_check_witness :
    ([([(1 : F)], [(2 : F)]), ([(3 : F)], [(4 : F)])] : List (List F × List F)) ≠ []
    ∧ serverCheck [(3 : F), 1] [(4 : F), 2] 5 [12, 32] = some true :=
  ⟨by decide,
    honest_round_check [([(1 : F)], [(2 : F)]), ([(3 : F)], [(4 : F)])] [3, 1] [4, 2] [12, 32] 5
      (by decide) (by decide)
      (List.Forall₂.cons (by decide) (List.Forall₂.cons (by decide) List.Forall₂.nil))
      (by decide) (by decide)⟩

/-! ### C10: deterministic sampling prefix in the voting round -/

theorem getD_range_map {α : Type} (l : List α) (d : α) :
    (List.range l.length).map (fun j => l.getD j d) = l := by
  induction l with
  | nil => rfl
  | cons x xs ih =>
    rw [List.length_cons, List.range_succ_eq_map, List.map_cons, List.map_map]
    have hcomp : ((fun j => (x :: xs).getD j d) ∘ Nat.succ) = fun j => xs.getD j d := by
      funext j
      simp [Nat.succ_eq_add_one, List.getD_cons_succ]
    rw [List.getD_cons_zero, hcomp, ih]

theorem verifiedIndices_eq (n m : Nat) : verifiedIndices n m = List.range (min m n) := by
  induction n with
  | zero => simp [verifiedIndices]
  | succ k ih =>
    rw [verifiedIndices, List.range_succ, List.filter_append, ← verifiedIndices, ih]
    by_cases h : k < m
    · have h1 : min m (k + 1) = k + 1 := by omega
      have h2 : min m k = k := by omega
      simp [h1, h2, List.range_succ, h]
    · have h1 : min m (k + 1) = min m k := by omega
      simp [h1, h]

/-- C10: in the voting round, proofs and public witnesses are generated for
exactly the deterministic prefix of client indices `0 .. maxCheck - 1` (every
other client's proof and public witness are nil), the verified set is exactly
that prefix, and every client's `PublicProd`, sampled or not, enters the
product used by the consistency check. -/
theorem sampled_prefix_spec (prods : List F) (maxCheck : Nat) :
    (∀ i, i < prods.length →
      (mkSubmissions prods maxCheck)[i]? =
        some (if i < maxCheck then (some (), some (), prods.getD i 0)
          else (none, none, prods.getD i 0)))
    ∧ verifiedIndices (mkSubmissions prods maxCheck).length maxCheck
        = List.range (min maxCheck (mkSubmissions prods maxCheck).length)
    ∧ prodFromClient (mkSubmissions prods maxCheck) = prods.prod := by
  refine ⟨fun i hi => ?_, verifiedIndices_eq _ _, ?_⟩
  · rw [mkSubmissions, List.getElem?_map, List.getElem?_range hi, Option.map_some']
  · rw [prodFromClient, mkSubmissions, List.foldl_map]
    have hsame : ∀ (a : F), ∀ i ∈ List.range prods.length,
        a * (if i < maxCheck then ((some () : Option Unit), (some () : Option Unit),
            prods.getD i 0) else (none, none, prods.getD i 0)).2.2
          = a * prods.getD i 0 := by
      intro a i _
      by_cases h : i < maxCheck <;> simp [h]
    rw [List.foldl_ext _ (fun (a : F) (i : Nat) => a * prods.getD i 0) 1 hsame]
    rw [show (fun (a : F) (i : Nat) => a * prods.getD i 0)
        = fun a i => (fun p x => p * x) a ((fun j => prods.getD j 0) i) from rfl]
    rw [← List.foldl_map (fun j => prods.getD j 0) (fun p x => p * x), getD_range_map,
      foldl_mul_init, one_mul]

/-- Witness for `sampled_prefix_spec` with two public fingerprints and a
sampling bound of one. -/
theorem sampled_prefix_spec_witness :
    0 < ([(2 : F), 3]).length
    ∧ (mkSubmissions [(2 : F), 3] 1)[0]? =
        some (if 0 < 1 then (some (), some (), ([(2 : F), 3]).getD 0 0)
          else (none, none, ([(2 : F), 3]).getD 0 0)) :=
  ⟨by decide, (sampled_prefix_spec [(2 : F), 3] 1).1 0 (by decide)⟩

/-! ### C6: the pair list generated from a ranking -/

theorem pairsFrom_eq_pairsRec (l : List Nat) : pairsFrom l = pairsRec l := by
  induction l with
  | nil => rfl
  | cons x rest ih =>
    rw [pairsFrom, List.length_cons, List.range_succ_eq_map, List.map_cons, List.map_map,
      List.flatten_cons]
    have hhead : (List.range (rest.length + 1 - 0 - 1)).map
        (fun j => ((x :: rest).getD 0 0, (x :: rest).getD (0 + j + 1) 0))
        = rest.map (fun y => (x, y)) := by
      have h1 : rest.length + 1 - 0 - 1 = rest.length := by omega
      rw [h1]
      have h2 : (fun j => ((x :: rest).getD 0 0, (x :: rest).getD (0 + j + 1) 0))
          = fun j => (x, rest.getD j 0) := by
        funext j
        have h3 : 0 + j + 1 = j + 1 := by omega
        rw [h3, List.getD_cons_zero, List.getD_cons_succ]
      rw [h2, show (fun j => (x, rest.getD j 0))
          = (fun y => (x, y)) ∘ (fun j => rest.getD j 0) from rfl,
        ← List.map_map, getD_range_map]
    have hrows : ((fun i => (List.range (rest.length + 1 - i - 1)).map
          (fun j => ((x :: rest).getD i 0, (x :: rest).getD (i + j + 1) 0))) ∘ Nat.succ)
        = fun i => (List.range (rest.length - i - 1)).map
          (fun j => (rest.getD i 0, rest.getD (i + j + 1) 0)) := by
      funext i
      simp only [Function.comp_apply, Nat.succ_eq_add_one]
      have h1 : rest.length + 1 - (i + 1) - 1 = rest.length - i - 1 := by omega
      rw [h1]
      apply List.map_congr_left
      intro j _
      have h2 : i + 1 + j + 1 = (i + j + 1) + 1 := by omega
      rw [h2, List.getD_cons_succ, List.getD_cons_succ]
    rw [hhead, hrows, pairsRec, ← ih]
    rfl

theorem pairsRec_length {α : Type} (l : List α) :
    (pairsRec l).length = l.length * (l.length - 1) / 2 := by
  induction l with
  | nil => simp [pairsRec]
  | cons x rest ih =>
    have hn : (pairsRec (x :: rest)).length = rest.length + (pairsRec rest).length := by
      simp [pairsRec]
    rw [hn, ih, List.length_cons]
    rcases rest.length with _ | m
    · rfl
    · simp only [Nat.add_sub_cancel]
      have h1 : (m + 1 + 1) * (m + 1) = (m + 1) * m + 2 * (m + 1) := by ring
      rw [h1, Nat.add_mul_div_left _ _ (by norm_num)]
      rw [Nat.add_comm]

theorem pairBase_succ (n i : Nat) : pairBase (n + 1) (i + 1) = n + pairBase n i := by
  rw [pairBase, List.range_succ_eq_map, List.map_cons, List.sum_cons, List.map_map]
  have h0 : n + 1 - 0 - 1 = n := by omega
  have hcomp : ((fun k => n + 1 - k - 1) ∘ Nat.succ) = fun k => n - k - 1 := by
    funext k
    simp only [Function.comp_apply, Nat.succ_eq_add_one]
    omega
  rw [h0, hcomp, ← pairBase]

theorem pairsRec_getElem (l : List Nat) :
    ∀ i j : Nat, i < l.length → j < l.length - i - 1 →
    (pairsRec l)[pairBase l.length i + j]? = some (l.getD i 0, l.getD (i + j + 1) 0) := by
  induction l with
  | nil =>
    intro i j hi _
    exact absurd hi (by simp)
  | cons x rest ih =>
    intro i j hi hj
    rcases i with _ | i
    · have hjlen : j < rest.length := by
        simpa using hj
      have hbase : pairBase (x :: rest).length 0 + j = j := by
        simp [pairBase]
      rw [hbase, pairsRec, List.getElem?_append,
        if_pos (by simpa using hjlen), List.getElem?_map, List.getElem?_eq_getElem hjlen,
        Option.map_some']
      have hr : rest.getD j 0 = rest[j] := by
        rw [List.getD_eq_getElem?_getD, List.getElem?_eq_getElem hjlen]
        rfl
      have h1 : 0 + j + 1 = j + 1 := by omega
      rw [h1, List.getD_cons_zero, List.getD_cons_succ, hr]
    · have hi2 : i < rest.length := by simpa using hi
      have hj2 : j < rest.length - i - 1 := by
        simp only [List.length_cons] at hj
        omega
      have hbase : pairBase (x :: rest).length (i + 1) + j
          = rest.length + (pairBase rest.length i + j) := by
        rw [List.length_cons, pairBase_succ]
        omega
      rw [hbase, pairsRec, List.getElem?_append_right (by simp)]
      have hsub : rest.length + (pairBase rest.length i + j)
          - (rest.map (fun y => (x, y))).length = pairBase rest.length i + j := by
        simp
      rw [hsub, ih i j hi2 hj2]
      have h2 : i + 1 + j + 1 = (i + j + 1) + 1 := by omega
      rw [h2, List.getD_cons_succ, List.getD_cons_succ]

/-- C6: for every ranking that is a permutation of `0 .. C-1`, the generated
pair list has exactly `C*(C-1)/2` entries, the entry at position
`pairBase C i + j` is `(ranking[i], ranking[i+j+1])`, and for `C = 4` with
ranking `[1,0,2,3]` the pair list is exactly
`[(1,0),(1,2),(1,3),(0,2),(0,3),(2,3)]`. -/
theorem pairList_spec (ranking : List Nat) (hperm : ranking.Perm (List.range ranking.length)) :
    (pairsFrom ranking).length = ranking.length * (ranking.length - 1) / 2
    ∧ (∀ i j : Nat, i < ranking.length → j < ranking.length - i - 1 →
        (pairsFrom ranking)[pairBase ranking.length i + j]? =
          some (ranking.getD i 0, ranking.getD (i + j + 1) 0))
    ∧ pairsFrom [1, 0, 2, 3] = [(1, 0), (1, 2), (1, 3), (0, 2), (0, 3), (2, 3)] := by
  refine ⟨?_, fun i j hi hj => ?_, by decide⟩
  · rw [pairsFrom_eq_pairsRec]
    exact pairsRec_length ranking
  · rw [pairsFrom_eq_pairsRec]
    exact pairsRec_getElem ranking i j hi hj

/-- Witness for `pairList_spec` at the ranking `[1,0,2,3]`. -/
theorem pairList_spec_witness :
    ([1, 0, 2, 3] : List Nat).Perm (List.range 4)
    ∧ pairsFrom [1, 0, 2, 3] = [(1, 0), (1, 2), (1, 3), (0, 2), (0, 3), (2, 3)] :=
  ⟨by decide, (pairList_spec [1, 0, 2, 3] (by decide)).2.2⟩

/-! ### C5: the sole-winner decision -/

theorem foldl_winner_of_none (ok : Nat → Bool) (l : List Nat) (acc : Int)
    (h : ∀ x ∈ l, ok x = false) :
    l.foldl (fun a k => if ok k then (k : Int) else a) acc = acc := by
  induction l generalizing acc with
  | nil => rfl
  | cons x xs ih =>
    rw [List.foldl_cons, if_neg (by simp [h x (by simp)])]
    exact ih acc (fun y hy => h y (by simp [hy]))

theorem foldl_winner_of_unique (ok : Nat → Bool) (l : List Nat) :
    ∀ (acc : Int) (i : Nat), i ∈ l → ok i = true → (∀ j ∈ l, ok j = true → j = i) →
    l.foldl (fun a k => if ok k then (k : Int) else a) acc = (i : Int) := by
  induction l with
  | nil =>
    intro acc i hi _ _
    exact absurd hi (by simp)
  | cons x xs ih =>
    intro acc i hi hok huniq
    rw [List.foldl_cons]
    by_cases hx : ok x = true
    · rw [if_pos hx]
      have hxi : x = i := huniq x (by simp) hx
      subst hxi
      by_cases hex : ∃ j ∈ xs, ok j = true
      · obtain ⟨j, hj, hjok⟩ := hex
        have hji : j = x := huniq j (by simp [hj]) hjok
        subst hji
        exact ih _ j hj hjok (fun k hk hkok => huniq k (by simp [hk]) hkok)
      · push_neg at hex
        exact foldl_winner_of_none ok xs _ (fun y hy => by simpa using hex y hy)
    · rw [if_neg hx]
      have hxs2 : i ∈ xs := by
        rcases List.mem_cons.mp hi with h1 | h2
        · exact absurd (h1 ▸ hok) hx
        · exact h2
      exact ih acc i hxs2 hok (fun k hk hkok => huniq k (by simp [hk]) hkok)

theorem okCandidate_iff (C : Nat) (cnt : Nat → Nat → Nat) (i : Nat) :
    okCandidate C cnt i = true ↔ ∀ j, j < C → j ≠ i → cnt j i < cnt i j := by
  rw [okCandidate, List.all_eq_true]
  constructor
  · intro h j hj hne
    have hj2 := h j (List.mem_range.mpr hj)
    simp only [Bool.or_eq_true, decide_eq_true_eq] at hj2
    rcases hj2 with h1 | h1
    · exact absurd h1 hne
    · exact h1
  · intro h j hj
    simp only [Bool.or_eq_true, decide_eq_true_eq]
    by_cases hje : j = i
    · exact Or.inl hje
    · exact Or.inr (h j (List.mem_range.mp hj) hje)

theorem okCandidate_unique (C : Nat) (cnt : Nat → Nat → Nat) (i j : Nat)
    (hi : i < C) (hj : j < C) (h1 : okCandidate C cnt i = true)
    (h2 : okCandidate C cnt j = true) : i = j := by
  by_contra hne
  have e1 := (okCandidate_iff C cnt i).mp h1 j hj (fun h => hne h.symm)
  have e2 := (okCandidate_iff C cnt j).mp h2 i hi hne
  omega

theorem soleWinner_eq_iff (C : Nat) (cnt : Nat → Nat → Nat) (i : Nat) :
    soleWinner C cnt = (i : Int) ↔ (i < C ∧ ∀ j, j < C → j ≠ i → cnt j i < cnt i j) := by
  constructor
  · intro h
    by_cases hex : ∃ j, j < C ∧ okCandidate C cnt j = true
    · obtain ⟨j, hj, hjok⟩ := hex
      have hw : soleWinner C cnt = (j : Int) := by
        rw [soleWinner]
        exact foldl_winner_of_unique _ _ _ j (List.mem_range.mpr hj) hjok
          (fun k hk hkok => okCandidate_unique C cnt k j (List.mem_range.mp hk) hj hkok hjok)
      rw [hw] at h
      have hji : j = i := Int.natCast_inj.mp h
      subst hji
      exact ⟨hj, (okCandidate_iff C cnt j).mp hjok⟩
    · push_neg at hex
      have hw : soleWinner C cnt = -1 := by
        rw [soleWinner]
        exact foldl_winner_of_none _ _ _ (fun x hx => by
          simpa using hex x (List.mem_range.mp hx))
      rw [hw] at h
      omega
  · rintro ⟨hiC, hcond⟩
    rw [soleWinner]
    have hok : okCandidate C cnt i = true := (okCandidate_iff C cnt i).mpr hcond
    exact foldl_winner_of_unique _ _ _ i (List.mem_range.mpr hiC) hok
      (fun k hk hkok => okCandidate_unique C cnt k i (List.mem_range.mp hk) hiC hkok hok)

theorem soleWinner_neg_one_iff (C : Nat) (cnt : Nat → Nat → Nat) :
    soleWinner C cnt = -1 ↔ ∀ i, i < C → okCandidate C cnt i = false := by
  constructor
  · intro h i hiC
    by_contra hok
    have hok2 : okCandidate C cnt i = true := by simpa using hok
    have hw : soleWinner C cnt = (i : Int) :=
      (soleWinner_eq_iff C cnt i).mpr ⟨hiC, (okCandidate_iff C cnt i).mp hok2⟩
    rw [hw] at h
    omega
  · intro h
    rw [soleWinner]
    exact foldl_winner_of_none _ _ _ (fun x hx => h x (List.mem_range.mp hx))

/-- C5 counterexample: on the tally built from a single received pair `(0,1)`
with 2 candidates and 2 clients, the code declares candidate `0` the sole
winner even though the claim's condition fails (since
`tally[0][1] + tally[1][0] = 1 ≠ 2`): the code's decision ignores the
`tally[i][j] + tally[j][i] == n` condition, which only triggers a diagnostic
print. -/
theorem soleWinner_claim_counterexample :
    soleWinner 2 (buildTally [(0, 1)]) = (0 : Int)
    ∧ ¬ (∀ j, j < 2 → j ≠ 0 →
        buildTally [(0, 1)] j 0 < buildTally [(0, 1)] 0 j
        ∧ buildTally [(0, 1)] 0 j + buildTally [(0, 1)] j 0 = 2) := by
  refine ⟨by decide, by decide⟩

/-- C5 amended: the server declares candidate `i` the sole winner if and only
if `i` beats every other candidate in the pairwise tally (the
`tally[i][j] + tally[j][i] == n` condition is only a diagnostic print, not
part of the decision); when no candidate qualifies the result is `-1`,
reported as "no sole winner", a valid terminal outcome; in particular, with 3
candidates and clients ranking `[0,1,2]` and `[1,0,2]`, no sole winner is
reported. -/
theorem soleWinner_spec :
    (∀ (C : Nat) (cnt : Nat → Nat → Nat) (i : Nat),
      soleWinner C cnt = (i : Int) ↔ (i < C ∧ ∀ j, j < C → j ≠ i → cnt j i < cnt i j))
    ∧ (∀ (C : Nat) (cnt : Nat → Nat → Nat),
      soleWinner C cnt = -1 ↔ ∀ i, i < C → okCandidate C cnt i = false)
    ∧ soleWinner 3 (buildTally (pairsFrom [0, 1, 2] ++ pairsFrom [1, 0, 2])) = -1 :=
  ⟨soleWinner_eq_iff, soleWinner_neg_one_iff, by decide⟩

/-- Witness for `soleWinner_spec`: the first characterization applied at the
concrete tally of the counterexample input declares candidate `0`. -/
theorem soleWinner_spec_witness :
    soleWinner 2 (buildTally [(0, 1), (0, 1)]) = (0 : Int) :=
  (soleWinner_spec.1 2 (buildTally [(0, 1), (0, 1)]) 0).mpr ⟨by decide, by decide⟩

/-! ### C9: the per-client threshold clause at threshold 2996 -/

/-- C9 counterexample: a client holding secret `999` split into the two shares
`[999, 0]` satisfies the threshold clause at threshold `2996` (its in-circuit
share sum is `999` and `999 ≤ 2996`), contradicting the claim that the clause
is unsatisfiable for every client. -/
theorem threshold_2996_counterexample :
    thresholdClauseHolds (splitSecret (999 : F) [0]) 2996 = true := by
  decide

/-- C9 amended: for every client holding secret `999`, whatever random shares
are drawn, the in-circuit share sum is `999`, so the threshold clause holds at
threshold `2996` (proof generation does not fail), and the client's share sum
contributed to the shuffled aggregate is unaffected, remaining `999`. -/
theorem threshold_2996_spec (rands : List F) :
    thresholdClauseHolds (splitSecret (999 : F) rands) 2996 = true
    ∧ (splitSecret (999 : F) rands).sum = 999 := by
  have hshare : circuitShareSum (splitSecret (999 : F) rands) = some (999 : F) := by
    rw [splitSecret, circuitShareSum, foldl_add_init, foldl_sub_init, sub_add_cancel]
  refine ⟨?_, by simp [splitSecret, foldl_sub_init, List.sum_cons]⟩
  rw [thresholdClauseHolds, hshare, Option.map_some', Option.getD_some]
  decide

/-! ### C4: tamper detection via the Schwartz-Zippel bound -/

theorem eval_negRootsPoly {K : Type} [Field K] (l : List K) (r : K) :
    Polynomial.eval r ((Multiset.map (fun a => Polynomial.X - Polynomial.C a)
      (↑(l.map (fun a => -a)) : Multiset K)).prod) = fingerprint l r := by
  rw [Multiset.map_coe, Multiset.prod_coe, Polynomial.eval_list_prod, List.map_map,
    List.map_map, fingerprint]
  apply congrArg List.prod
  apply List.map_congr_left
  intro a _
  simp only [Function.comp_apply, Polynomial.eval_sub, Polynomial.eval_X, Polynomial.eval_C,
    sub_neg_eq_add]
  exact add_comm r a

theorem count_set_of_ne {K : Type} [DecidableEq K] (xs : List K) :
    ∀ (i : Nat) (y d : K), i < xs.length → y ≠ xs.getD i d →
    (xs.set i y).count y = xs.count y + 1 := by
  induction xs with
  | nil =>
    intro i y d hi _
    exact absurd hi (by simp)
  | cons x rest ih =>
    intro i y d hi hy
    rcases i with _ | i
    · rw [List.getD_cons_zero] at hy
      rw [List.set_cons_zero, List.count_cons, List.count_cons]
      have hxy : (x == y) = false := by
        simpa using Ne.symm hy
      simp [hxy]
    · rw [List.set_cons_succ, List.count_cons, List.count_cons]
      rw [List.getD_cons_succ] at hy
      have hi2 : i < rest.length := by simpa using hi
      rw [ih i y d hi2 hy]
      omega

/-- C4 counterexample: with the single value `0` replaced by `1` but a zero
dummy value, the masked fingerprints of the tampered and honest sequences
agree for every challenge (both sides are `0`), so the set of passing
challenges is the whole field, far exceeding the total sequence length `2`. -/
theorem tamper_zero_dummy_counterexample :
    (1 : F) ≠ ([(0 : F)]).getD 0 0
    ∧ ¬ ((Finset.univ.filter (fun r : F =>
        clientPublicProd (([(0 : F)]).set 0 1) [(0 : F)] r
          = clientPublicProd [(0 : F)] [(0 : F)] r)).card
        ≤ ([(0 : F)]).length + ([(0 : F)]).length) := by
  constructor
  · decide
  · intro hle
    have hall : ∀ r : F, clientPublicProd (([(0 : F)]).set 0 1) [(0 : F)] r
        = clientPublicProd [(0 : F)] [(0 : F)] r := by
      intro r
      simp [clientPublicProd, PolyEval]
    rw [Finset.filter_true_of_mem (fun r _ => hall r), Finset.card_univ, ZMod.card] at hle
    norm_num [bnP] at hle

/-- C4 amended: for every non-empty sequence over a finite field, every
replacement of one element by a different field element, and every sequence of
dummies whose product (the mask) is nonzero, the number of challenges at which
the masked fingerprint of the tampered sequence still equals the honest
client's masked fingerprint is at most the total sequence length.  (Without
the nonzero-mask condition the bound fails, as the counterexample shows.) -/
theorem tamper_detection {K : Type} [Field K] [Fintype K] [DecidableEq K]
    (xs : List K) (i : Nat) (y : K) (dums : List K)
    (hi : i < xs.length) (hy : y ≠ xs.getD i 0)
    (hD : dums.foldl (fun a m => a * m) 1 ≠ 0) :
    (Finset.univ.filter (fun r : K =>
      clientPublicProd (xs.set i y) dums r = clientPublicProd xs dums r)).card
      ≤ xs.length + dums.length := by
  have hxne : xs ≠ [] := by
    intro h0
    rw [h0] at hi
    exact absurd hi (by simp)
  have htne : xs.set i y ≠ [] := by
    intro h0
    have := List.length_set xs i y
    rw [h0] at this
    simp at this
    rw [← this] at hi
    exact absurd hi (by simp)
  set P := (Multiset.map (fun a => Polynomial.X - Polynomial.C a)
    (↑((xs.set i y).map (fun a => -a)) : Multiset K)).prod with hPdef
  set Q := (Multiset.map (fun a => Polynomial.X - Polynomial.C a)
    (↑(xs.map (fun a => -a)) : Multiset K)).prod with hQdef
  have hPQ : P ≠ Q := by
    intro he
    have h1 : P.roots = (↑((xs.set i y).map (fun a => -a)) : Multiset K) :=
      Polynomial.roots_multiset_prod_X_sub_C _
    have h2 : Q.roots = (↑(xs.map (fun a => -a)) : Multiset K) :=
      Polynomial.roots_multiset_prod_X_sub_C _
    have h3 : (↑((xs.set i y).map (fun a => -a)) : Multiset K)
        = ↑(xs.map (fun a => -a)) := by
      rw [← h1, ← h2, he]
    have h4 : ((xs.set i y).map (fun a => -a)).Perm (xs.map (fun a => -a)) :=
      Multiset.coe_eq_coe.mp h3
    have h5 := h4.count_eq (-y)
    rw [List.count_map_of_injective _ _ neg_injective y,
      List.count_map_of_injective _ _ neg_injective y] at h5
    rw [count_set_of_ne xs i y 0 hi hy] at h5
    omega
  have hsub : (Finset.univ.filter (fun r : K =>
      clientPublicProd (xs.set i y) dums r = clientPublicProd xs dums r))
      ⊆ (P - Q).roots.toFinset := by
    intro r hr
    have hcond := (Finset.mem_filter.mp hr).2
    rw [clientPublicProd, clientPublicProd, polyEval_eq_some_fingerprint _ _ htne,
      polyEval_eq_some_fingerprint _ _ hxne, Option.map_some', Option.map_some'] at hcond
    have hmul : fingerprint (xs.set i y) r * dums.foldl (fun a m => a * m) 1
        = fingerprint xs r * dums.foldl (fun a m => a * m) 1 :=
      (Option.some.injEq _ _).mp hcond
    have hfp : fingerprint (xs.set i y) r = fingerprint xs r :=
      mul_right_cancel₀ hD hmul
    rw [Multiset.mem_toFinset, Polynomial.mem_roots']
    refine ⟨sub_ne_zero.mpr hPQ, ?_⟩
    show Polynomial.eval r (P - Q) = 0
    rw [Polynomial.eval_sub, hPdef, hQdef, eval_negRootsPoly, eval_negRootsPoly, hfp,
      sub_self]
  have hdeg : (P - Q).natDegree ≤ xs.length := by
    have hdP : P.natDegree = xs.length := by
      rw [hPdef, Polynomial.natDegree_multiset_prod_X_sub_C_eq_card, Multiset.coe_card,
        List.length_map, List.length_set]
    have hdQ : Q.natDegree = xs.length := by
      rw [hQdef, Polynomial.natDegree_multiset_prod_X_sub_C_eq_card, Multiset.coe_card,
        List.length_map]
    calc (P - Q).natDegree ≤ P.natDegree ⊔ Q.natDegree := Polynomial.natDegree_sub_le P Q
      _ ≤ xs.length := max_le (le_of_eq hdP) (le_of_eq hdQ)
  calc (Finset.univ.filter (fun r : K =>
      clientPublicProd (xs.set i y) dums r = clientPublicProd xs dums r)).card
      ≤ (P - Q).roots.toFinset.card := Finset.card_le_card hsub
    _ ≤ Multiset.card (P - Q).roots := Multiset.toFinset_card_le _
    _ ≤ (P - Q).natDegree := Polynomial.card_roots' _
    _ ≤ xs.length := hdeg
    _ ≤ xs.length + dums.length := Nat.le_add_right _ _

instance : Fact (Nat.Prime 101) := ⟨by norm_num⟩

/-- Witness for `tamper_detection` over the prime field with 101 elements:
the sequence `[1, 2]` tampered at position `0` to `3`, with the single
nonzero dummy `1`. -/
theorem tamper_detection_witness :
    (0 < ([(1 : ZMod 101), 2]).length)
    ∧ ((3 : ZMod 101) ≠ ([(1 : ZMod 101), 2]).getD 0 0)
    ∧ (([(1 : ZMod 101)]).foldl (fun a m => a * m) 1 ≠ 0)
    ∧ (Finset.univ.filter (fun r : ZMod 101 =>
        clientPublicProd (([(1 : ZMod 101), 2]).set 0 3) [(1 : ZMod 101)] r
          = clientPublicProd [(1 : ZMod 101), 2] [(1 : ZMod 101)] r)).card
        ≤ ([(1 : ZMod 101), 2]).length + ([(1 : ZMod 101)]).length :=
  ⟨by decide, by decide, by decide,
    tamper_detection [(1 : ZMod 101), 2] 0 3 [(1 : ZMod 101)]
      (by decide) (by decide) (by decide)⟩

end ShuffleZKP
